import Mathlib

set_option maxHeartbeats 1000000

namespace Cdc

/-! Shallow embedding of `src/cdc_stats/input_data.py`.

Strings are modelled as `List Char` in the low-level character routines and
as Lean `String` at the table level.  Machine behaviour that matters here
(Python `str.replace`, `re.sub` for the two fixed noise patterns, `int()`,
`datetime.date.fromisoformat`, dict lookup with default) is translated
directly from the source. -/

/-- Boolean test that `sub` is a prefix of the second list. -/
def prefixOf : List Char → List Char → Bool
  | [], _ => true
  | _ :: _, [] => false
  | a :: as, b :: bs => a == b && prefixOf as bs

/-- Python's substring containment test (`sub in s`). -/
def hasSubstr (sub : List Char) : List Char → Bool
  | [] => prefixOf sub []
  | c :: t => prefixOf sub (c :: t) || hasSubstr sub t

/-- One deletion pass of `del_regex1 = r'([A-Z][0-9][0-9]-[A-Z][0-9][0-9])'`:
`re.sub` scans left to right, removes each non-overlapping match. -/
def subRegex1 : List Char → List Char
  | a :: b :: c :: d :: e :: x :: y :: t =>
      if a.isUpper && b.isDigit && c.isDigit && d == '-' && e.isUpper && x.isDigit && y.isDigit
      then subRegex1 t
      else a :: subRegex1 (b :: c :: d :: e :: x :: y :: t)
  | a :: t => a :: subRegex1 t
  | [] => []

/-- One deletion pass of `del_regex2 = r'([A-Z][0-9][0-9][0-9]?)'`: the trailing
`[0-9]?` is greedy, so a fourth digit is consumed when present. -/
def subRegex2 : List Char → List Char
  | a :: b :: c :: t =>
      if a.isUpper && b.isDigit && c.isDigit then
        match t with
        | d :: u => if d.isDigit then subRegex2 u else subRegex2 (d :: u)
        | [] => subRegex2 ([] : List Char)
      else a :: subRegex2 (b :: c :: t)
  | a :: t => a :: subRegex2 t
  | [] => []

/-- `field.replace(old, '_')` for a single character `old`. -/
def replChar (old c : Char) : Char := if c = old then '_' else c

/-- The five character replacements sending each of the characters
parenthesis (both), comma, hyphen and space to an underscore, in source order. -/
def punctToUnderscore (s : List Char) : List Char :=
  ((((s.map (replChar '(')).map (replChar ')')).map (replChar ',')).map
      (replChar '-')).map (replChar ' ')

/-- `field.replace('___', '_')`: one left-to-right non-overlapping pass. -/
def collapse3 : List Char → List Char
  | [] => []
  | [c] => [c]
  | [c, d] => [c, d]
  | c :: d :: e :: t =>
      if c = '_' ∧ d = '_' ∧ e = '_' then '_' :: collapse3 t
      else c :: collapse3 (d :: e :: t)

/-- `field.replace('__', '_')`: one left-to-right non-overlapping pass. -/
def collapse2 : List Char → List Char
  | [] => []
  | [c] => [c]
  | c :: d :: t =>
      if c = '_' ∧ d = '_' then '_' :: collapse2 t
      else c :: collapse2 (d :: t)

/-- `while field.endswith('_'): field = field[:-1]`. -/
def stripTrailingUnderscores (s : List Char) : List Char :=
  (s.reverse.dropWhile (fun c => c == '_')).reverse

/-- `UrlCSV._clean_headings` applied to one raw heading. -/
def cleanHeading (name : List Char) : List Char :=
  stripTrailingUnderscores
    (collapse2 (collapse3 (punctToUnderscore (subRegex2 (subRegex1 name)))))

/-- String-level wrapper for `cleanHeading`. -/
def cleanHeadingStr (s : String) : String := String.mk (cleanHeading s.data)

/-- `UrlCSV._clean_headings` over the whole heading list. -/
def cleanHeadings (headings : List String) : List String :=
  headings.map cleanHeadingStr

/-! Lemmas about the underscore-collapse passes, used for claim C5. -/

theorem hasSubstr_tail {sub : List Char} {c : Char} {t : List Char}
    (h : hasSubstr sub (c :: t) = false) : hasSubstr sub t = false := by
  simp only [hasSubstr, Bool.or_eq_false_iff] at h
  exact h.2

theorem prefixOf_append {sub a : List Char} (b : List Char)
    (h : prefixOf sub a = true) : prefixOf sub (a ++ b) = true := by
  induction sub generalizing a with
  | nil => simp [prefixOf]
  | cons x xs ih =>
    cases a with
    | nil => simp [prefixOf] at h
    | cons y ys =>
      simp only [prefixOf, Bool.and_eq_true] at h ⊢
      exact ⟨h.1, ih h.2⟩

theorem hasSubstr_append_left {sub a : List Char} (b : List Char)
    (h : hasSubstr sub a = true) : hasSubstr sub (a ++ b) = true := by
  induction a with
  | nil =>
    cases sub with
    | nil => cases b <;> simp [hasSubstr, prefixOf]
    | cons x xs => simp [hasSubstr, prefixOf] at h
  | cons c t ih =>
    simp only [hasSubstr, Bool.or_eq_true] at h ⊢
    rcases h with h | h
    · exact Or.inl (prefixOf_append b h)
    · exact Or.inr (ih h)

theorem dropWhile_decomp (p : Char → Bool) :
    ∀ l : List Char, ∃ pre, l = pre ++ l.dropWhile p := by
  intro l
  induction l with
  | nil => exact ⟨[], rfl⟩
  | cons c t ih =>
    by_cases h : p c = true
    · rcases ih with ⟨pre, hpre⟩
      refine ⟨c :: pre, ?_⟩
      simp [List.dropWhile, h]
      exact hpre
    · refine ⟨[], ?_⟩
      simp [List.dropWhile, h]

theorem stripTrailing_no_substr {sub s : List Char}
    (h : hasSubstr sub s = false) :
    hasSubstr sub (stripTrailingUnderscores s) = false := by
  rcases dropWhile_decomp (fun c => c == '_') s.reverse with ⟨pre, hpre⟩
  by_contra hc
  rw [Bool.not_eq_false] at hc
  have hs : s = stripTrailingUnderscores s ++ pre.reverse := by
    have : s.reverse.reverse = (pre ++ s.reverse.dropWhile (fun c => c == '_')).reverse := by
      rw [← hpre]
    simpa [stripTrailingUnderscores, List.reverse_append] using this
  have : hasSubstr sub s = true := by
    rw [hs]
    exact hasSubstr_append_left _ hc
  rw [this] at h
  cases h

theorem underscore_beq_false {c : Char} (h : ¬ c = '_') : ('_' == c) = false := by
  cases hbe : ('_' == c) with
  | false => rfl
  | true => exact absurd (eq_of_beq hbe).symm h

theorem prefixOf_one_false {c : Char} (t : List Char) (h : ¬ c = '_') :
    prefixOf ['_'] (c :: t) = false := by
  simp [prefixOf, underscore_beq_false h]

theorem prefixOf_two_cons (x : List Char) :
    prefixOf ['_', '_'] ('_' :: x) = prefixOf ['_'] x := by
  simp [prefixOf]

theorem prefixOf_three_cons (x : List Char) :
    prefixOf ['_', '_', '_'] ('_' :: x) = prefixOf ['_', '_'] x := by
  simp [prefixOf]

theorem prefixOf_two_head_false {c : Char} (x : List Char) (h : ¬ c = '_') :
    prefixOf ['_', '_'] (c :: x) = false := by
  simp [prefixOf, underscore_beq_false h]

theorem prefixOf_three_head_false {c : Char} (x : List Char) (h : ¬ c = '_') :
    prefixOf ['_', '_', '_'] (c :: x) = false := by
  simp [prefixOf, underscore_beq_false h]

theorem prefixOf_two_pair_false {c d : Char} (x : List Char)
    (h : ¬ (c = '_' ∧ d = '_')) :
    prefixOf ['_', '_'] (c :: d :: x) = false := by
  by_cases hc : c = '_'
  · have hd : ¬ d = '_' := fun hd => h ⟨hc, hd⟩
    subst hc
    rw [prefixOf_two_cons]
    exact prefixOf_one_false _ hd
  · exact prefixOf_two_head_false _ hc

theorem collapse2_eq_cons {c d : Char} (t : List Char) (h : ¬ (c = '_' ∧ d = '_')) :
    collapse2 (c :: d :: t) = c :: collapse2 (d :: t) := by
  simp [collapse2, h]

theorem collapse3_eq_cons {c d e : Char} (t : List Char)
    (h : ¬ (c = '_' ∧ d = '_' ∧ e = '_')) :
    collapse3 (c :: d :: e :: t) = c :: collapse3 (d :: e :: t) := by
  simp [collapse3, h]

theorem collapse2_head {t : List Char} (h : prefixOf ['_'] t = false) :
    prefixOf ['_'] (collapse2 t) = false := by
  match t with
  | [] => simp [collapse2, prefixOf]
  | [c] =>
    have hc : ¬ c = '_' := by
      intro hc; subst hc; simp [prefixOf] at h
    simpa [collapse2] using prefixOf_one_false ([] : List Char) hc
  | c :: d :: u =>
    have hc : ¬ c = '_' := by
      intro hc; subst hc; simp [prefixOf] at h
    rw [collapse2_eq_cons u (fun hx => hc hx.1)]
    exact prefixOf_one_false _ hc

theorem collapse3_head {t : List Char} (h : prefixOf ['_'] t = false) :
    prefixOf ['_'] (collapse3 t) = false := by
  match t with
  | [] => simp [collapse3, prefixOf]
  | [c] =>
    have hc : ¬ c = '_' := by
      intro hc; subst hc; simp [prefixOf] at h
    simpa [collapse3] using prefixOf_one_false ([] : List Char) hc
  | [c, d] =>
    have hc : ¬ c = '_' := by
      intro hc; subst hc; simp [prefixOf] at h
    simpa [collapse3] using prefixOf_one_false [d] hc
  | c :: d :: e :: u =>
    have hc : ¬ c = '_' := by
      intro hc; subst hc; simp [prefixOf] at h
    rw [collapse3_eq_cons u (fun hx => hc hx.1)]
    exact prefixOf_one_false _ hc

theorem collapse3_two {t : List Char} (h : prefixOf ['_', '_'] t = false) :
    prefixOf ['_', '_'] (collapse3 t) = false := by
  match t with
  | [] => simp [collapse3, prefixOf]
  | [c] => simp [collapse3, prefixOf]
  | [c, d] =>
    have hcd : ¬ (c = '_' ∧ d = '_') := by
      intro hx; obtain ⟨hc, hd⟩ := hx; subst hc; subst hd; simp [prefixOf] at h
    simpa [collapse3] using prefixOf_two_pair_false ([] : List Char) hcd
  | c :: d :: e :: u =>
    have hcd : ¬ (c = '_' ∧ d = '_') := by
      intro hx; obtain ⟨hc, hd⟩ := hx; subst hc; subst hd; simp [prefixOf] at h
    rw [collapse3_eq_cons u (fun hx => hcd ⟨hx.1, hx.2.1⟩)]
    by_cases hc : c = '_'
    · subst hc
      have hd : ¬ d = '_' := fun hd => hcd ⟨rfl, hd⟩
      rw [prefixOf_two_cons]
      exact collapse3_head (prefixOf_one_false _ hd)
    · exact prefixOf_two_head_false _ hc

theorem collapse3_norun :
    ∀ {s : List Char}, hasSubstr ['_', '_', '_', '_', '_'] s = false →
      hasSubstr ['_', '_', '_'] (collapse3 s) = false := by
  intro s
  induction s using collapse3.induct with
  | case1 => intro _; simp [collapse3, hasSubstr, prefixOf]
  | case2 c => intro _; simp [collapse3, hasSubstr, prefixOf]
  | case3 c d => intro _; simp [collapse3, hasSubstr, prefixOf]
  | case4 c d e t hcond ih =>
    intro h
    obtain ⟨hc, hd, he⟩ := hcond
    subst hc; subst hd; subst he
    have ht : hasSubstr ['_', '_', '_', '_', '_'] t = false :=
      hasSubstr_tail (hasSubstr_tail (hasSubstr_tail h))
    have ht2 : prefixOf ['_', '_'] t = false := by
      by_contra hcontra
      rw [Bool.not_eq_false] at hcontra
      have h5 : prefixOf ['_', '_', '_', '_', '_'] ('_' :: '_' :: '_' :: t) = true := by
        simpa [prefixOf] using hcontra
      simp [hasSubstr, h5] at h
    have hx := collapse3_two ht2
    rw [show collapse3 ('_' :: '_' :: '_' :: t) = '_' :: collapse3 t from by
      simp [collapse3]]
    simp only [hasSubstr, Bool.or_eq_false_iff]
    exact ⟨by rw [prefixOf_three_cons]; exact hx, ih ht⟩
  | case5 c d e t hcond ih =>
    intro h
    have hy := ih (hasSubstr_tail h)
    rw [collapse3_eq_cons t hcond]
    simp only [hasSubstr, Bool.or_eq_false_iff]
    refine ⟨?_, hy⟩
    by_cases hc : c = '_'
    · subst hc
      have hde : ¬ (d = '_' ∧ e = '_') := fun hx => hcond ⟨rfl, hx.1, hx.2⟩
      rw [prefixOf_three_cons]
      exact collapse3_two (prefixOf_two_pair_false _ hde)
    · exact prefixOf_three_head_false _ hc

theorem collapse2_norun :
    ∀ {s : List Char}, hasSubstr ['_', '_', '_'] s = false →
      hasSubstr ['_', '_'] (collapse2 s) = false := by
  intro s
  induction s using collapse2.induct with
  | case1 => intro _; simp [collapse2, hasSubstr, prefixOf]
  | case2 c => intro _; simp [collapse2, hasSubstr, prefixOf]
  | case3 c d t hcond ih =>
    intro h
    obtain ⟨hc, hd⟩ := hcond
    subst hc; subst hd
    have ht : hasSubstr ['_', '_', '_'] t = false :=
      hasSubstr_tail (hasSubstr_tail h)
    have ht1 : prefixOf ['_'] t = false := by
      by_contra hcontra
      rw [Bool.not_eq_false] at hcontra
      have h3 : prefixOf ['_', '_', '_'] ('_' :: '_' :: t) = true := by
        simpa [prefixOf] using hcontra
      simp [hasSubstr, h3] at h
    have hx := collapse2_head ht1
    rw [show collapse2 ('_' :: '_' :: t) = '_' :: collapse2 t from by simp [collapse2]]
    simp only [hasSubstr, Bool.or_eq_false_iff]
    exact ⟨by rw [prefixOf_two_cons]; exact hx, ih ht⟩
  | case4 c d t hcond ih =>
    intro h
    have hy := ih (hasSubstr_tail h)
    rw [collapse2_eq_cons t hcond]
    simp only [hasSubstr, Bool.or_eq_false_iff]
    refine ⟨?_, hy⟩
    by_cases hc : c = '_'
    · subst hc
      have hd : ¬ d = '_' := fun hd => hcond ⟨rfl, hd⟩
      rw [prefixOf_two_cons]
      exact collapse2_head (prefixOf_one_false _ hd)
    · exact prefixOf_two_head_false _ hc

/-! Scalar parsing: models of Python `int(...)` and
`date_to_datetime_date` (ISO parse with `MM/DD/YYYY` rewrite). -/

/-- ASCII whitespace stripped by Python `int(str)`. -/
def isSpaceChar (c : Char) : Bool :=
  c == ' ' || c == '\t' || c == '\n' || c == '\r' || c == '\x0b' || c == '\x0c'

/-- Strip leading and trailing whitespace. -/
def pyStrip (s : List Char) : List Char :=
  ((s.dropWhile isSpaceChar).reverse.dropWhile isSpaceChar).reverse

/-- Continuation of a digit string after one digit: optional single
underscores between digits (Python 3 numeric literals accepted by `int`). -/
def digitsTail : List Char → Bool
  | [] => true
  | '_' :: t =>
    match t with
    | d :: u => d.isDigit && digitsTail u
    | [] => false
  | d :: t => d.isDigit && digitsTail t

/-- Nonempty digit string with optional single underscores between digits. -/
def pyDigits : List Char → Bool
  | d :: t => d.isDigit && digitsTail t
  | [] => false

/-- Does Python `int(s)` succeed on string `s`? -/
def pyIntParses (s : List Char) : Bool :=
  match pyStrip s with
  | '+' :: t => pyDigits t
  | '-' :: t => pyDigits t
  | t => pyDigits t

/-- Numeric value of a stripped digit string (underscores skipped). -/
def digitsToNat (l : List Char) : Nat :=
  l.foldl (fun n c => if c = '_' then n else n * 10 + (c.toNat - 48)) 0

/-- Value Python `int(s)` returns (meaningful only when `pyIntParses s`). -/
def pyIntVal (s : List Char) : Int :=
  match pyStrip s with
  | '+' :: t => (digitsToNat t : Int)
  | '-' :: t => -(digitsToNat t : Int)
  | t => (digitsToNat t : Int)

/-- A calendar date as produced by `datetime.date`. -/
structure PyDate where
  year : Nat
  month : Nat
  day : Nat
deriving DecidableEq, Repr

def isLeap (y : Nat) : Bool :=
  y % 4 == 0 && (y % 100 != 0 || y % 400 == 0)

def daysInMonth (y m : Nat) : Nat :=
  if m = 2 then (if isLeap y then 29 else 28)
  else if m = 4 ∨ m = 6 ∨ m = 9 ∨ m = 11 then 30
  else 31

def digit2 (a b : Char) : Nat := (a.toNat - 48) * 10 + (b.toNat - 48)

/-- `datetime.date.fromisoformat`: exactly `YYYY-MM-DD` with a valid
calendar date (year 1..9999). -/
def parseIso : List Char → Option PyDate
  | [y1, y2, y3, y4, '-', m1, m2, '-', d1, d2] =>
    if y1.isDigit && y2.isDigit && y3.isDigit && y4.isDigit &&
        m1.isDigit && m2.isDigit && d1.isDigit && d2.isDigit then
      let y := digit2 y1 y2 * 100 + digit2 y3 y4
      let m := digit2 m1 m2
      let d := digit2 d1 d2
      if 1 ≤ y ∧ 1 ≤ m ∧ m ≤ 12 ∧ 1 ≤ d ∧ d ≤ daysInMonth y m then
        some ⟨y, m, d⟩
      else none
    else none
  | _ => none

/-- Python `s.split('/')`. -/
def splitSlash : List Char → List (List Char)
  | [] => [[]]
  | '/' :: t => [] :: splitSlash t
  | c :: t =>
    match splitSlash t with
    | p :: ps => (c :: p) :: ps
    | [] => [[c]]

/-- `date_to_datetime_date`: `none` models the `ValueError` the caller
catches (wrong slash count or failed ISO parse). -/
def dateToDate (s : List Char) : Option PyDate :=
  if s.contains '/' then
    match splitSlash s with
    | [m, d, y] => parseIso (y ++ '-' :: (m ++ '-' :: d))
    | _ => none
  else parseIso s

/-! The type system of `determine_types`. -/

inductive SType where
  | int
  | date
  | text
deriving DecidableEq, Repr

inductive Func where
  | intF
  | dateF
  | strF
deriving DecidableEq, Repr

/-- A typed cell value (`FieldTypes` plus Python `None` as `missing`). -/
inductive FieldVal where
  | intV (n : Int)
  | dateV (d : PyDate)
  | textV (s : String)
  | missing
deriving DecidableEq, Repr

/-- Does the candidate conversion function raise on `v`? -/
def funcSucceeds : Func → String → Bool
  | .intF, v => pyIntParses v.data
  | .dateF, v => (dateToDate v.data).isSome
  | .strF, _ => true

/-- The ordered candidate list `detect_funcs = [(int, int), (date_to_datetime_date, date), (str, str)]`. -/
def detectFuncs : List (Func × SType) :=
  [(.intF, .int), (.dateF, .date), (.strF, .text)]

/-- The inner candidate loop: first candidate whose function succeeds. -/
def tryCandidates (v : String) : Option (Func × SType) :=
  detectFuncs.find? (fun fc => funcSucceeds fc.1 v)

/-- Direct description of the candidate resolution of a non-blank value. -/
def resolveValue (v : String) : Func × SType :=
  if pyIntParses v.data then (.intF, .int)
  else if (dateToDate v.data).isSome then (.dateF, .date)
  else (.strF, .text)

theorem tryCandidates_eq (v : String) : tryCandidates v = some (resolveValue v) := by
  by_cases hi : pyIntParses v.data = true
  · simp [tryCandidates, detectFuncs, List.find?, funcSucceeds, hi, resolveValue]
  · by_cases hd : (dateToDate v.data).isSome = true
    · simp [tryCandidates, detectFuncs, List.find?, funcSucceeds, hi, hd, resolveValue]
    · simp [tryCandidates, detectFuncs, List.find?, funcSucceeds, hi, hd, resolveValue]

/-- Applying the stored conversion function to a (non-blank) raw cell. -/
def applyFunc : Func → String → FieldVal
  | .intF, v => .intV (pyIntVal v.data)
  | .dateF, v =>
    match dateToDate v.data with
    | some d => .dateV d
    | none => .missing
  | .strF, v => .textV v

/-! Tables and `determine_types`. -/

/-- The raw material of a `UrlCSV` after CSV reading and heading cleanup:
`name`, the cleaned `field_names`, and the raw rows (each positionally
aligned with `field_names`, as enforced by the namedtuple constructor). -/
structure RawTable where
  name : String
  fieldNames : List String
  rows : List (List String)
deriving DecidableEq, Repr

/-- Index of a field name in the field list (first occurrence). -/
def idxOf (f : String) : List String → Nat
  | [] => 0
  | g :: t => if g = f then 0 else idxOf f t + 1

/-- `getattr(row, field)`: positional access through the namedtuple. -/
def getField (fns : List String) (row : List String) (f : String) : String :=
  row.getD (idxOf f fns) ""

/-- Association-list lookup modelling Python dict lookup (`d[k]` / `d.get(k)`). -/
def assocLookup {β : Type} (f : String) : List (String × β) → Option β
  | [] => none
  | (k, v) :: t => if k = f then some v else assocLookup f t

/-- The `field_types` dictionary under construction. -/
abbrev TypeMap := List (String × (Func × SType))

/-- The two `RuntimeError`s `determine_types` can raise: the type-conflict
message interpolates only the previous conversion function and the newly
detected type; `notString` is the defensive "not even a string" branch. -/
inductive TypeErr where
  | mismatch (prevFunc : Func) (newType : SType)
  | notString
deriving DecidableEq, Repr

/-- One iteration of the `determine_types` inner loop for field `f` with raw
cell `v`: skip blanks, resolve the value, compare with the recorded type. -/
def stepField (m : TypeMap) (f v : String) : Except TypeErr TypeMap :=
  if v = "" then .ok m
  else
    match tryCandidates v with
    | none => .error .notString
    | some ft =>
      match assocLookup f m with
      | some prev => if prev = ft then .ok m else .error (.mismatch prev.1 ft.2)
      | none => .ok ((f, ft) :: m)

/-- The `for field in self.field_names` loop over one row. -/
def detFields (fns : List String) (row : List String) :
    List String → TypeMap → Except TypeErr TypeMap
  | [], m => .ok m
  | f :: rest, m =>
    match stepField m f (getField fns row f) with
    | .error e => .error e
    | .ok m2 => detFields fns row rest m2

/-- The `for row in self.data` loop. -/
def detRows (fns : List String) : List (List String) → TypeMap → Except TypeErr TypeMap
  | [], m => .ok m
  | row :: rest, m =>
    match detFields fns row fns m with
    | .error e => .error e
    | .ok m2 => detRows fns rest m2

/-- The final loop giving every untyped field the `(str, str)` default. -/
def fillDefaults : TypeMap → List String → TypeMap
  | m, [] => m
  | m, f :: rest =>
    if (assocLookup f m).isSome then fillDefaults m rest
    else fillDefaults (m ++ [(f, (.strF, .text))]) rest

/-- `UrlCSV.determine_types`. -/
def determineTypes (t : RawTable) : Except TypeErr TypeMap :=
  match detRows t.fieldNames t.rows [] with
  | .error e => .error e
  | .ok m => .ok (fillDefaults m t.fieldNames)

/-- The `(func, cls)` pair stored for a field (total lookup; after
`fillDefaults` every field of the table is present). -/
def ftOf (m : TypeMap) (f : String) : Func × SType :=
  (assocLookup f m).getD (.strF, .text)

/-- One cell of `_make_typed_tuples`: parse non-blanks, send blank Integer
cells to `0` and other blanks to the missing marker. -/
def typedCell (ft : Func × SType) (value : String) : FieldVal :=
  if value ≠ "" then applyFunc ft.1 value
  else if ft.2 = .int then .intV 0
  else .missing

/-- `UrlCSV._make_typed_tuples`. -/
def makeTypedTuples (t : RawTable) (m : TypeMap) : List (List FieldVal) :=
  t.rows.map (fun row =>
    t.fieldNames.map (fun f => typedCell (ftOf m f) (getField t.fieldNames row f)))

/-- `UrlCSV._make_typed_dict`: one dict per typed row. -/
def makeTypedDict (fns : List String) (typed : List (List FieldVal)) :
    List (List (String × FieldVal)) :=
  typed.map (fun row => fns.map (fun f => (f, row.getD (idxOf f fns) .missing)))

/-- The constructed `UrlCSV` object (post-network, post-CSV-parse state). -/
structure UrlCsv where
  name : String
  fieldNames : List String
  fieldTypes : TypeMap
  typedData : List (List FieldVal)
  typedDict : List (List (String × FieldVal))
deriving DecidableEq, Repr

/-- The fallible part of `UrlCSV.__init__` after reading: type inference
then typed-view construction; a `TypeErr` aborts the whole build. -/
def buildUrlCsv (t : RawTable) : Except TypeErr UrlCsv :=
  match determineTypes t with
  | .error e => .error e
  | .ok m =>
    .ok ⟨t.name, t.fieldNames, m, makeTypedTuples t m,
      makeTypedDict t.fieldNames (makeTypedTuples t m)⟩

/-- The raw values observed for one field down the rows of a table. -/
def columnOf (t : RawTable) (f : String) : List String :=
  t.rows.map (fun row => getField t.fieldNames row f)

/-! `union_fields`, `merge_typed_dicts`, `pivot_typed_dict`. -/

/-- Python `list.insert(i, x)`: positions past the end append. -/
def pyInsert {α : Type} (l : List α) (i : Nat) (x : α) : List α :=
  l.take i ++ x :: l.drop i

/-- The first loop of `union_fields`: copy of the first field list of
strictly maximal length (`longest_fields`). -/
def pickLongest : List UrlCsv → List String → List String
  | [], acc => acc
  | t :: rest, acc =>
    pickLongest rest (if t.fieldNames.length > acc.length then t.fieldNames else acc)

/-- The inner splice loop of `union_fields`: `index` is the enumerate
counter, `off` the number of insertions made in this pass. -/
def spliceGo : List String → Nat → Nat → List String → List String
  | base, _, _, [] => base
  | base, idx, off, f :: rest =>
    if f ∈ base then spliceGo base (idx + 1) off rest
    else spliceGo (pyInsert base (idx + off) f) (idx + 1) (off + 1) rest

/-- The second loop of `union_fields` over the argument tables. -/
def spliceAll : List String → List UrlCsv → List String
  | base, [] => base
  | base, t :: rest =>
    if t.fieldNames = base then spliceAll base rest
    else spliceAll (spliceGo base 0 0 t.fieldNames) rest

/-- `union_fields(*args)`. -/
def unionFields (ts : List UrlCsv) : List String :=
  spliceAll (pickLongest ts []) ts

/-- The per-field default of `merge_typed_dicts`:
`default = None if 'flag' in field else 0`. -/
def defaultFor (f : String) : FieldVal :=
  if hasSubstr ['f', 'l', 'a', 'g'] f.data then .missing else .intV 0

/-- One merged row: every union field, defaulting the absent ones. -/
def mergeRow (fieldList : List String) (row : List (String × FieldVal)) :
    List (String × FieldVal) :=
  fieldList.map (fun f => (f, (assocLookup f row).getD (defaultFor f)))

/-- `merge_typed_dicts(*args)`. -/
def mergeTypedDicts (ts : List UrlCsv) : List (List (String × FieldVal)) :=
  ts.flatMap (fun t => t.typedDict.map (mergeRow (unionFields ts)))

/-- The errors `pivot_typed_dict` can raise: `td[0]` on an empty list, and
`result[field]` for a field absent from the first row. -/
inductive PivotErr where
  | indexErr
  | keyErr (f : String)
deriving DecidableEq, Repr

/-- `result[field].append(value)`: `none` models the `KeyError`. -/
def appendAt (res : List (String × List FieldVal)) (f : String) (v : FieldVal) :
    Option (List (String × List FieldVal)) :=
  match res with
  | [] => none
  | (g, vs) :: rest =>
    if g = f then some ((g, vs ++ [v]) :: rest)
    else (appendAt rest f v).map (fun r => (g, vs) :: r)

/-- The `for field in row.keys()` loop of `pivot_typed_dict`. -/
def pivotRow (res : List (String × List FieldVal)) :
    List (String × FieldVal) → Except PivotErr (List (String × List FieldVal))
  | [] => .ok res
  | (f, v) :: rest =>
    match appendAt res f v with
    | none => .error (.keyErr f)
    | some res2 => pivotRow res2 rest

/-- The `for row in td` loop of `pivot_typed_dict`. -/
def pivotRows (res : List (String × List FieldVal)) :
    List (List (String × FieldVal)) → Except PivotErr (List (String × List FieldVal))
  | [] => .ok res
  | row :: rest =>
    match pivotRow res row with
    | .error e => .error e
    | .ok res2 => pivotRows res2 rest

/-- `pivot_typed_dict(td)`. -/
def pivotTypedDict (td : List (List (String × FieldVal))) :
    Except PivotErr (List (String × List FieldVal)) :=
  match td with
  | [] => .error .indexErr
  | first :: _ => pivotRows (first.map (fun p => (p.1, ([] : List FieldVal)))) td

/-! Claim C5: underscore collapse in header normalization. -/

/-- C5 (amended): the two collapse replacements are single passes, so the
normalized identifier is free of double underscores only when every
underscore run present after noise-stripping and punctuation replacement
has length at most four (equivalently, no five consecutive underscores at
that stage).  Under that bound, `cleanHeading` output never contains two
consecutive underscores. -/
theorem clean_heading_no_double_underscore (name : String)
    (h : hasSubstr ['_', '_', '_', '_', '_']
        (punctToUnderscore (subRegex2 (subRegex1 name.data))) = false) :
    hasSubstr ['_', '_'] (cleanHeadingStr name).data = false := by
  have h3 := stripTrailing_no_substr (collapse2_norun (collapse3_norun h))
  exact h3

/-- C5 counterexample: the raw header `"a     b"` (five spaces) normalizes
to `"a__b"`, which contains a double underscore — the collapse passes are
not applied until fixpoint, refuting the claim for arbitrary headers. -/
theorem clean_heading_double_underscore_example :
    cleanHeadingStr "a     b" = "a__b" ∧
    hasSubstr ['_', '_'] (cleanHeadingStr "a     b").data = true := by
  constructor
  · rfl
  · decide

/-- C5 witness: the spec's own example header satisfies the run bound and
its normalization has no double underscore. -/
theorem clean_heading_no_double_underscore_witness :
    hasSubstr ['_', '_', '_', '_', '_']
        (punctToUnderscore (subRegex2 (subRegex1 "COVID-19 Deaths (A05)".data))) = false ∧
    hasSubstr ['_', '_'] (cleanHeadingStr "COVID-19 Deaths (A05)").data = false :=
  ⟨by decide, clean_heading_no_double_underscore "COVID-19 Deaths (A05)" (by decide)⟩

/-! Theory of `determine_types`: the nested row/field loops are a fold over
the flattened list of (field, raw value) pairs. -/

/-- Fold the `determine_types` step over a flat list of (field, value) pairs. -/
def foldPairs : TypeMap → List (String × String) → Except TypeErr TypeMap
  | m, [] => .ok m
  | m, (f, v) :: rest =>
    match stepField m f v with
    | .error e => .error e
    | .ok m2 => foldPairs m2 rest

/-- The (field, value) pairs scanned for one row. -/
def rowPairs (fns : List String) (row : List String) : List (String × String) :=
  fns.map (fun f => (f, getField fns row f))

theorem detFields_eq_foldPairs (fns row : List String) :
    ∀ (fields : List String) (m : TypeMap),
      detFields fns row fields m =
        foldPairs m (fields.map (fun f => (f, getField fns row f))) := by
  intro fields
  induction fields with
  | nil => intro m; rfl
  | cons f rest ih =>
    intro m
    simp only [detFields, List.map_cons, foldPairs]
    cases stepField m f (getField fns row f) with
    | error e => rfl
    | ok m2 => exact ih m2

theorem foldPairs_append (a b : List (String × String)) :
    ∀ m : TypeMap, foldPairs m (a ++ b) =
      match foldPairs m a with
      | .error e => .error e
      | .ok m2 => foldPairs m2 b := by
  induction a with
  | nil => intro m; rfl
  | cons p rest ih =>
    intro m
    obtain ⟨f, v⟩ := p
    simp only [List.cons_append, foldPairs]
    cases stepField m f v with
    | error e => rfl
    | ok m2 => exact ih m2

theorem detRows_eq_foldPairs (fns : List String) :
    ∀ (rows : List (List String)) (m : TypeMap),
      detRows fns rows m = foldPairs m (rows.flatMap (rowPairs fns)) := by
  intro rows
  induction rows with
  | nil => intro m; rfl
  | cons row rest ih =>
    intro m
    simp only [detRows, List.flatMap_cons, foldPairs_append, rowPairs]
    rw [detFields_eq_foldPairs]
    cases foldPairs m (fns.map (fun f => (f, getField fns row f))) with
    | error e => rfl
    | ok m2 => exact ih m2

theorem stepField_blank (m : TypeMap) (f : String) : stepField m f "" = .ok m := by
  simp [stepField]

theorem stepField_nb_found (m : TypeMap) (f v : String) (prev : Func × SType)
    (hv : v ≠ "") (hl : assocLookup f m = some prev) :
    stepField m f v =
      if prev = resolveValue v then .ok m
      else .error (.mismatch prev.1 (resolveValue v).2) := by
  simp [stepField, hv, tryCandidates_eq, hl]

theorem stepField_nb_new (m : TypeMap) (f v : String)
    (hv : v ≠ "") (hl : assocLookup f m = none) :
    stepField m f v = .ok ((f, resolveValue v) :: m) := by
  simp [stepField, hv, tryCandidates_eq, hl]

theorem assocLookup_cons {β : Type} (f g : String) (x : β) (m : List (String × β)) :
    assocLookup f ((g, x) :: m) = if g = f then some x else assocLookup f m := rfl

/-- Two type maps are equivalent when they are equal as Python dicts. -/
def alEquiv (m m2 : TypeMap) : Prop := ∀ f, assocLookup f m = assocLookup f m2

/-- Two inference outcomes agree up to dict equality of the ok states;
error payloads are not compared (only whether an error occurred). -/
def resEquiv : Except TypeErr TypeMap → Except TypeErr TypeMap → Prop
  | .ok m, .ok m2 => alEquiv m m2
  | .error _, .error _ => True
  | _, _ => False

theorem resEquiv_rfl (x : Except TypeErr TypeMap) : resEquiv x x := by
  cases x with
  | error e => trivial
  | ok m => exact fun _ => rfl

theorem resEquiv_trans : ∀ {x y z : Except TypeErr TypeMap},
    resEquiv x y → resEquiv y z → resEquiv x z := by
  intro x y z h1 h2
  cases x with
  | error e =>
    cases y with
    | error e2 =>
      cases z with
      | error e3 => trivial
      | ok m => exact h2.elim
    | ok m => exact h1.elim
  | ok m =>
    cases y with
    | error e2 => exact h1.elim
    | ok m2 =>
      cases z with
      | error e3 => exact h2.elim
      | ok m3 => exact fun f => (h1 f).trans (h2 f)

theorem stepField_congr {m m2 : TypeMap} (h : alEquiv m m2) (f v : String) :
    resEquiv (stepField m f v) (stepField m2 f v) := by
  by_cases hv : v = ""
  · subst hv
    rw [stepField_blank, stepField_blank]
    exact h
  · cases hl : assocLookup f m with
    | some prev =>
      have hl2 : assocLookup f m2 = some prev := by rw [← h f]; exact hl
      rw [stepField_nb_found m f v prev hv hl, stepField_nb_found m2 f v prev hv hl2]
      by_cases hp : prev = resolveValue v
      · rw [if_pos hp, if_pos hp]; exact h
      · rw [if_neg hp, if_neg hp]; trivial
    | none =>
      have hl2 : assocLookup f m2 = none := by rw [← h f]; exact hl
      rw [stepField_nb_new m f v hv hl, stepField_nb_new m2 f v hv hl2]
      intro g
      rw [assocLookup_cons, assocLookup_cons]
      by_cases hg : f = g
      · rw [if_pos hg, if_pos hg]
      · rw [if_neg hg, if_neg hg]; exact h g

theorem foldPairs_congr (ps : List (String × String)) :
    ∀ {m m2 : TypeMap}, alEquiv m m2 →
      resEquiv (foldPairs m ps) (foldPairs m2 ps) := by
  induction ps with
  | nil => intro m m2 h; exact h
  | cons p rest ih =>
    intro m m2 h
    obtain ⟨f, v⟩ := p
    have hs := stepField_congr h f v
    simp only [foldPairs]
    cases h1 : stepField m f v with
    | error e =>
      cases h2 : stepField m2 f v with
      | error e2 => trivial
      | ok mm => rw [h1, h2] at hs; exact hs.elim
    | ok mm =>
      cases h2 : stepField m2 f v with
      | error e2 => rw [h1, h2] at hs; exact hs.elim
      | ok mm2 => rw [h1, h2] at hs; exact ih hs

/-- Two consecutive `determine_types` steps from state `m`. -/
def run2 (m : TypeMap) (a b : String × String) : Except TypeErr TypeMap :=
  match stepField m a.1 a.2 with
  | .error e => .error e
  | .ok m2 => stepField m2 b.1 b.2

theorem foldPairs_cons_cons (m : TypeMap) (a b : String × String)
    (ps : List (String × String)) :
    foldPairs m (a :: b :: ps) =
      match run2 m a b with
      | .error e => .error e
      | .ok m2 => foldPairs m2 ps := by
  obtain ⟨f, v⟩ := a
  obtain ⟨g, w⟩ := b
  simp only [foldPairs, run2]
  cases stepField m f v with
  | error e => rfl
  | ok m2 =>
    cases stepField m2 g w with
    | error e => rfl
    | ok m3 => rfl

theorem alEquiv_cons_comm {f g : String} (x y : Func × SType) (m : TypeMap)
    (hfg : ¬ f = g) : alEquiv ((g, y) :: (f, x) :: m) ((f, x) :: (g, y) :: m) := by
  intro z
  rw [assocLookup_cons, assocLookup_cons, assocLookup_cons, assocLookup_cons]
  by_cases hg : g = z
  · have hf : ¬ f = z := fun hf => hfg (hf.trans hg.symm)
    rw [if_pos hg, if_neg hf, if_pos hg]
  · by_cases hf : f = z
    · rw [if_neg hg, if_pos hf, if_pos hf]
    · rw [if_neg hg, if_neg hf, if_neg hf, if_neg hg]

theorem run2_swap (m : TypeMap) (a b : String × String) :
    resEquiv (run2 m a b) (run2 m b a) := by
  obtain ⟨f, v⟩ := a
  obtain ⟨g, w⟩ := b
  by_cases hv : v = ""
  · subst hv
    simp only [run2, stepField_blank]
    cases hgw : stepField m g w with
    | error e => simp only [hgw]; trivial
    | ok m2 => simp only [hgw, stepField_blank]; exact resEquiv_rfl _
  · by_cases hw : w = ""
    · subst hw
      simp only [run2, stepField_blank]
      cases hfv : stepField m f v with
      | error e => simp only [hfv]; trivial
      | ok m2 => simp only [hfv, stepField_blank]; exact resEquiv_rfl _
    · by_cases hfg : f = g
      · subst hfg
        cases hl : assocLookup f m with
        | some p =>
          by_cases hpv : p = resolveValue v
          · by_cases hpw : p = resolveValue w
            · simp only [run2, stepField_nb_found m f v p hv hl,
                stepField_nb_found m f w p hw hl, if_pos hpv, if_pos hpw,
                stepField_nb_found m f w p hw hl, stepField_nb_found m f v p hv hl]
              exact resEquiv_rfl _
            · simp only [run2, stepField_nb_found m f v p hv hl,
                stepField_nb_found m f w p hw hl, if_pos hpv, if_neg hpw]
              trivial
          · by_cases hpw : p = resolveValue w
            · simp only [run2, stepField_nb_found m f v p hv hl,
                stepField_nb_found m f w p hw hl, if_neg hpv, if_pos hpw]
              trivial
            · simp only [run2, stepField_nb_found m f v p hv hl,
                stepField_nb_found m f w p hw hl, if_neg hpv, if_neg hpw]
              trivial
        | none =>
          have hlv : assocLookup f ((f, resolveValue v) :: m) = some (resolveValue v) := by
            rw [assocLookup_cons, if_pos rfl]
          have hlw : assocLookup f ((f, resolveValue w) :: m) = some (resolveValue w) := by
            rw [assocLookup_cons, if_pos rfl]
          by_cases hvw : resolveValue v = resolveValue w
          · simp only [run2, stepField_nb_new m f v hv hl, stepField_nb_new m f w hw hl,
              stepField_nb_found _ f w (resolveValue v) hw hlv,
              stepField_nb_found _ f v (resolveValue w) hv hlw,
              if_pos hvw, if_pos hvw.symm]
            rw [hvw]
            exact resEquiv_rfl _
          · have hwv : ¬ resolveValue w = resolveValue v := fun h2 => hvw h2.symm
            simp only [run2, stepField_nb_new m f v hv hl, stepField_nb_new m f w hw hl,
              stepField_nb_found _ f w (resolveValue v) hw hlv,
              stepField_nb_found _ f v (resolveValue w) hv hlw,
              if_neg hvw, if_neg hwv]
            trivial
      · have hgf : ¬ g = f := fun h => hfg h.symm
        have lkg : ∀ (x : Func × SType), assocLookup g ((f, x) :: m) = assocLookup g m :=
          fun x => by rw [assocLookup_cons, if_neg hfg]
        have lkf : ∀ (x : Func × SType), assocLookup f ((g, x) :: m) = assocLookup f m :=
          fun x => by rw [assocLookup_cons, if_neg hgf]
        cases hlf : assocLookup f m with
        | some p =>
          cases hlg : assocLookup g m with
          | some q =>
            by_cases hpv : p = resolveValue v
            · by_cases hqw : q = resolveValue w
              · simp only [run2, stepField_nb_found m f v p hv hlf, if_pos hpv,
                  stepField_nb_found m g w q hw hlg, if_pos hqw]
                exact resEquiv_rfl _
              · simp only [run2, stepField_nb_found m f v p hv hlf, if_pos hpv,
                  stepField_nb_found m g w q hw hlg, if_neg hqw]
                trivial
            · by_cases hqw : q = resolveValue w
              · simp only [run2, stepField_nb_found m f v p hv hlf, if_neg hpv,
                  stepField_nb_found m g w q hw hlg, if_pos hqw]
                trivial
              · simp only [run2, stepField_nb_found m f v p hv hlf, if_neg hpv,
                  stepField_nb_found m g w q hw hlg, if_neg hqw]
                trivial
          | none =>
            by_cases hpv : p = resolveValue v
            · simp only [run2, stepField_nb_found m f v p hv hlf, if_pos hpv,
                stepField_nb_new m g w hw hlg,
                stepField_nb_new m g w hw hlg]
              have hf2 : assocLookup f ((g, resolveValue w) :: m) = some p := by
                rw [lkf]; exact hlf
              simp only [stepField_nb_found _ f v p hv hf2, if_pos hpv]
              exact resEquiv_rfl _
            · simp only [run2, stepField_nb_found m f v p hv hlf, if_neg hpv,
                stepField_nb_new m g w hw hlg]
              have hf2 : assocLookup f ((g, resolveValue w) :: m) = some p := by
                rw [lkf]; exact hlf
              simp only [stepField_nb_found _ f v p hv hf2, if_neg hpv]
              trivial
        | none =>
          cases hlg : assocLookup g m with
          | some q =>
            by_cases hqw : q = resolveValue w
            · simp only [run2, stepField_nb_new m f v hv hlf,
                stepField_nb_found m g w q hw hlg, if_pos hqw]
              have hg2 : assocLookup g ((f, resolveValue v) :: m) = some q := by
                rw [lkg]; exact hlg
              simp only [stepField_nb_found _ g w q hw hg2, if_pos hqw,
                stepField_nb_new m f v hv hlf]
              exact resEquiv_rfl _
            · simp only [run2, stepField_nb_new m f v hv hlf,
                stepField_nb_found m g w q hw hlg, if_neg hqw]
              have hg2 : assocLookup g ((f, resolveValue v) :: m) = some q := by
                rw [lkg]; exact hlg
              simp only [stepField_nb_found _ g w q hw hg2, if_neg hqw]
              trivial
          | none =>
            have hg2 : assocLookup g ((f, resolveValue v) :: m) = none := by
              rw [lkg]; exact hlg
            have hf2 : assocLookup f ((g, resolveValue w) :: m) = none := by
              rw [lkf]; exact hlf
            simp only [run2, stepField_nb_new m f v hv hlf,
              stepField_nb_new m g w hw hlg,
              stepField_nb_new _ g w hw hg2, stepField_nb_new _ f v hv hf2]
            exact alEquiv_cons_comm _ _ m hfg

theorem foldPairs_perm {ps qs : List (String × String)} (h : ps.Perm qs) :
    ∀ m : TypeMap, resEquiv (foldPairs m ps) (foldPairs m qs) := by
  induction h with
  | nil => intro m; exact resEquiv_rfl _
  | cons x _ ih =>
    intro m
    obtain ⟨f, v⟩ := x
    simp only [foldPairs]
    cases stepField m f v with
    | error e => trivial
    | ok m2 => exact ih m2
  | swap x y l =>
    intro m
    rw [foldPairs_cons_cons, foldPairs_cons_cons]
    have hs := run2_swap m y x
    cases h1 : run2 m y x with
    | error e =>
      cases h2 : run2 m x y with
      | error e2 => simp only [h1, h2]; trivial
      | ok mm => rw [h1, h2] at hs; exact hs.elim
    | ok mm =>
      cases h2 : run2 m x y with
      | error e2 => rw [h1, h2] at hs; exact hs.elim
      | ok mm2 =>
        simp only [h1, h2]
        rw [h1, h2] at hs
        exact foldPairs_congr l hs
  | trans _ _ ih1 ih2 => intro m; exact resEquiv_trans (ih1 m) (ih2 m)

theorem flatMap_perm {α β : Type} (f : α → List β) {l1 l2 : List α}
    (h : l1.Perm l2) : (l1.flatMap f).Perm (l2.flatMap f) := by
  induction h with
  | nil => exact List.Perm.refl _
  | cons x _ ih =>
    simp only [List.flatMap_cons]
    exact List.Perm.append_left _ ih
  | swap x y l =>
    simp only [List.flatMap_cons]
    rw [← List.append_assoc, ← List.append_assoc]
    exact List.Perm.append_right _ List.perm_append_comm
  | trans _ _ ih1 ih2 => exact ih1.trans ih2

theorem assocLookup_append {β : Type} (f : String) (m n : List (String × β)) :
    assocLookup f (m ++ n) =
      match assocLookup f m with
      | some x => some x
      | none => assocLookup f n := by
  induction m with
  | nil => rfl
  | cons p t ih =>
    obtain ⟨k, v⟩ := p
    by_cases hk : k = f
    · simp only [List.cons_append, assocLookup_cons, if_pos hk]
    · simp only [List.cons_append, assocLookup_cons, if_neg hk]
      exact ih

theorem fillDefaults_lookup (f : String) :
    ∀ (fns : List String) (m : TypeMap),
      assocLookup f (fillDefaults m fns) =
        match assocLookup f m with
        | some x => some x
        | none => if f ∈ fns then some (.strF, .text) else none := by
  intro fns
  induction fns with
  | nil =>
    intro m
    simp only [fillDefaults]
    cases assocLookup f m with
    | some x => rfl
    | none => simp
  | cons g rest ih =>
    intro m
    simp only [fillDefaults]
    by_cases hg : (assocLookup g m).isSome
    · rw [if_pos hg, ih m]
      cases hf : assocLookup f m with
      | some x => rfl
      | none =>
        have hfg : ¬ f = g := by
          intro hfg; subst hfg; rw [hf] at hg; simp at hg
        have hmem : (f ∈ g :: rest) = (f ∈ rest) := by
          simp [List.mem_cons, hfg]
        simp only [hmem]
    · rw [if_neg hg, ih (m ++ [(g, (Func.strF, SType.text))]), assocLookup_append]
      cases hf : assocLookup f m with
      | some x => rfl
      | none =>
        by_cases hfg : g = f
        · subst hfg
          rw [if_pos (List.mem_cons_self g rest)]
          simp [assocLookup]
        · have hfg2 : ¬ f = g := fun h => hfg h.symm
          have hmem : (f ∈ g :: rest) = (f ∈ rest) := by
            simp [List.mem_cons, hfg2]
          simp only [assocLookup_cons, if_neg hfg, assocLookup, hmem]

theorem fillDefaults_congr {m m2 : TypeMap} (h : alEquiv m m2) (fns : List String) :
    alEquiv (fillDefaults m fns) (fillDefaults m2 fns) := by
  intro f
  rw [fillDefaults_lookup, fillDefaults_lookup, h f]

theorem determineTypes_eq (t : RawTable) :
    determineTypes t =
      match foldPairs [] (t.rows.flatMap (rowPairs t.fieldNames)) with
      | .error e => .error e
      | .ok m => .ok (fillDefaults m t.fieldNames) := by
  rw [determineTypes, detRows_eq_foldPairs]

/-! Claim C10: row order insensitivity of `determine_types`. -/

/-- C10: permuting the rows of a table does not change whether
`determine_types` raises, and on success it yields the same
field-to-(parser, type) dictionary: each non-blank value resolves to its
type independently under the fixed candidate order, and a conflict occurs
exactly when two non-blank values of one field resolve differently. -/
theorem determine_types_row_order_insensitive (t t2 : RawTable)
    (hf : t.fieldNames = t2.fieldNames) (hp : t.rows.Perm t2.rows) :
    ((determineTypes t).isOk = (determineTypes t2).isOk) ∧
      (∀ m m2, determineTypes t = .ok m → determineTypes t2 = .ok m2 →
        ∀ f, assocLookup f m = assocLookup f m2) := by
  have hperm : (t.rows.flatMap (rowPairs t.fieldNames)).Perm
      (t2.rows.flatMap (rowPairs t2.fieldNames)) := by
    rw [← hf]
    exact flatMap_perm _ hp
  have hres := foldPairs_perm hperm []
  rw [determineTypes_eq t, determineTypes_eq t2]
  cases h1 : foldPairs [] (t.rows.flatMap (rowPairs t.fieldNames)) with
  | error e =>
    cases h2 : foldPairs [] (t2.rows.flatMap (rowPairs t2.fieldNames)) with
    | error e2 =>
      refine ⟨rfl, ?_⟩
      intro m m2 hm hm2
      exact Except.noConfusion hm
    | ok mm =>
      rw [h1, h2] at hres
      exact hres.elim
  | ok mm =>
    cases h2 : foldPairs [] (t2.rows.flatMap (rowPairs t2.fieldNames)) with
    | error e2 =>
      rw [h1, h2] at hres
      exact hres.elim
    | ok mm2 =>
      rw [h1, h2] at hres
      refine ⟨rfl, ?_⟩
      intro m m2 hm hm2 f
      injection hm with hm
      injection hm2 with hm2
      subst hm
      subst hm2
      rw [← hf]
      exact fillDefaults_congr hres t.fieldNames f

/-- Concrete permuted pair of tables for the C10 witness. -/
def tPermA : RawTable := ⟨"wa", ["a"], [["5"], ["x"]]⟩

/-- The same rows in the opposite order. -/
def tPermB : RawTable := ⟨"wb", ["a"], [["x"], ["5"]]⟩

/-- C10 witness: the theorem applied to a concrete permuted pair. -/
theorem determine_types_row_order_insensitive_witness :
    ((determineTypes tPermA).isOk = (determineTypes tPermB).isOk) ∧
      (∀ m m2, determineTypes tPermA = .ok m → determineTypes tPermB = .ok m2 →
        ∀ f, assocLookup f m = assocLookup f m2) :=
  determine_types_row_order_insensitive tPermA tPermB rfl (List.Perm.swap _ _ _)

/-! Per-field view of the scan: the state at one key evolves through a
single-field automaton. -/

/-- The values of the pairs carrying field `f`, in scan order. -/
def colVals (f : String) (ps : List (String × String)) : List String :=
  (ps.filter (fun p => p.1 == f)).map Prod.snd

/-- One `determine_types` step seen from a single field's entry. -/
def stepOne (st : Option (Func × SType)) (v : String) :
    Except TypeErr (Option (Func × SType)) :=
  if v = "" then .ok st
  else
    match tryCandidates v with
    | none => .error .notString
    | some ft =>
      match st with
      | some prev => if prev = ft then .ok st else .error (.mismatch prev.1 ft.2)
      | none => .ok (some ft)

/-- The single-field automaton run over a list of raw values. -/
def foldOne : Option (Func × SType) → List String → Except TypeErr (Option (Func × SType))
  | st, [] => .ok st
  | st, v :: rest =>
    match stepOne st v with
    | .error e => .error e
    | .ok st2 => foldOne st2 rest

theorem stepOne_blank (st : Option (Func × SType)) : stepOne st "" = .ok st := by
  simp [stepOne]

theorem stepOne_nb_some (prev : Func × SType) (v : String) (hv : v ≠ "") :
    stepOne (some prev) v =
      if prev = resolveValue v then .ok (some prev)
      else .error (.mismatch prev.1 (resolveValue v).2) := by
  simp [stepOne, hv, tryCandidates_eq]

theorem stepOne_nb_none (v : String) (hv : v ≠ "") :
    stepOne none v = .ok (some (resolveValue v)) := by
  simp [stepOne, hv, tryCandidates_eq]

theorem colVals_cons (f g v : String) (ps : List (String × String)) :
    colVals f ((g, v) :: ps) =
      if g = f then v :: colVals f ps else colVals f ps := by
  by_cases h : g = f <;> simp [colVals, List.filter_cons, h]

theorem foldPairs_ok_char (ps : List (String × String)) :
    ∀ (m m2 : TypeMap), foldPairs m ps = .ok m2 →
      ∀ f, foldOne (assocLookup f m) (colVals f ps) = .ok (assocLookup f m2) := by
  induction ps with
  | nil =>
    intro m m2 h f
    injection h with h
    subst h
    rfl
  | cons p rest ih =>
    intro m m2 h f
    obtain ⟨g, v⟩ := p
    simp only [foldPairs] at h
    rw [colVals_cons]
    by_cases hv : v = ""
    · subst hv
      rw [stepField_blank] at h
      simp only at h
      by_cases hg : g = f
      · rw [if_pos hg]
        simp only [foldOne, stepOne_blank]
        exact ih m m2 h f
      · rw [if_neg hg]
        exact ih m m2 h f
    · cases hl : assocLookup g m with
      | some prev =>
        rw [stepField_nb_found m g v prev hv hl] at h
        by_cases hp : prev = resolveValue v
        · rw [if_pos hp] at h
          simp only at h
          by_cases hg : g = f
          · subst hg
            rw [if_pos rfl]
            simp only [foldOne, hl, stepOne_nb_some prev v hv, if_pos hp]
            rw [← hl]
            exact ih m m2 h g
          · rw [if_neg hg]
            exact ih m m2 h f
        · rw [if_neg hp] at h
          exact Except.noConfusion h
      | none =>
        rw [stepField_nb_new m g v hv hl] at h
        simp only at h
        by_cases hg : g = f
        · subst hg
          rw [if_pos rfl]
          simp only [foldOne, hl, stepOne_nb_none v hv]
          have := ih _ m2 h g
          rw [assocLookup_cons, if_pos rfl] at this
          exact this
        · rw [if_neg hg]
          have := ih _ m2 h f
          rw [assocLookup_cons, if_neg hg] at this
          exact this

theorem foldOne_some_stable (l : List String) :
    ∀ (p : Func × SType) (st2 : Option (Func × SType)),
      foldOne (some p) l = .ok st2 → st2 = some p := by
  induction l with
  | nil =>
    intro p st2 h
    injection h with h
    exact h.symm
  | cons v rest ih =>
    intro p st2 h
    simp only [foldOne] at h
    by_cases hv : v = ""
    · rw [hv, stepOne_blank] at h
      simp only at h
      exact ih p st2 h
    · rw [stepOne_nb_some p v hv] at h
      by_cases hp : p = resolveValue v
      · rw [if_pos hp] at h
        simp only at h
        exact ih p st2 h
      · rw [if_neg hp] at h
        exact Except.noConfusion h

theorem foldOne_ok_mem (l : List String) :
    ∀ (st st2 : Option (Func × SType)), foldOne st l = .ok st2 →
      ∀ v ∈ l, v ≠ "" → st2 = some (resolveValue v) := by
  induction l with
  | nil =>
    intro st st2 h v hv
    simp at hv
  | cons w rest ih =>
    intro st st2 h v hv hvnb
    simp only [foldOne] at h
    by_cases hw : w = ""
    · rw [hw, stepOne_blank] at h
      simp only at h
      rcases List.mem_cons.mp hv with hvw | hv2
      · rw [hvw] at hvnb
        exact absurd hw hvnb
      · exact ih st st2 h v hv2 hvnb
    · cases st with
      | some p =>
        rw [stepOne_nb_some p w hw] at h
        by_cases hp : p = resolveValue w
        · rw [if_pos hp] at h
          simp only at h
          rcases List.mem_cons.mp hv with hvw | hv2
          · subst hvw
            rw [foldOne_some_stable rest p st2 h, hp]
          · exact ih (some p) st2 h v hv2 hvnb
        · rw [if_neg hp] at h
          exact Except.noConfusion h
      | none =>
        rw [stepOne_nb_none w hw] at h
        simp only at h
        rcases List.mem_cons.mp hv with hvw | hv2
        · subst hvw
          exact foldOne_some_stable rest _ st2 h
        · exact ih _ st2 h v hv2 hvnb

theorem foldOne_conflict {l : List String} {v w : String}
    (hv : v ∈ l) (hw : w ∈ l) (hvnb : v ≠ "") (hwnb : w ≠ "")
    (hne : resolveValue v ≠ resolveValue w) :
    ∀ (st st2 : Option (Func × SType)), foldOne st l ≠ .ok st2 := by
  intro st st2 h
  have h1 := foldOne_ok_mem l st st2 h v hv hvnb
  have h2 := foldOne_ok_mem l st st2 h w hw hwnb
  rw [h1] at h2
  injection h2 with h2
  exact hne h2

theorem foldOne_all_blank (l : List String) :
    ∀ st, (∀ v ∈ l, v = "") → foldOne st l = .ok st := by
  induction l with
  | nil => intro st _; rfl
  | cons w rest ih =>
    intro st hb
    have hw : w = "" := hb w (List.mem_cons_self w rest)
    simp only [foldOne, hw, stepOne_blank]
    exact ih st (fun v hv => hb v (List.mem_cons_of_mem w hv))

theorem columnOf_sub (t : RawTable) (f : String) (hf : f ∈ t.fieldNames) :
    ∀ v ∈ columnOf t f, v ∈ colVals f (t.rows.flatMap (rowPairs t.fieldNames)) := by
  intro v hv
  obtain ⟨row, hrow, hval⟩ := List.mem_map.mp hv
  have hpair : (f, v) ∈ t.rows.flatMap (rowPairs t.fieldNames) := by
    rw [List.mem_flatMap]
    refine ⟨row, hrow, ?_⟩
    rw [rowPairs]
    exact List.mem_map.mpr ⟨f, hf, by rw [hval]⟩
  rw [colVals, List.mem_map]
  exact ⟨(f, v), List.mem_filter.mpr ⟨hpair, by simp⟩, rfl⟩

theorem colVals_sub (t : RawTable) (f : String) :
    ∀ v ∈ colVals f (t.rows.flatMap (rowPairs t.fieldNames)), v ∈ columnOf t f := by
  intro v hv
  rw [colVals, List.mem_map] at hv
  obtain ⟨p, hp, hpv⟩ := hv
  obtain ⟨hmem, hkey⟩ := List.mem_filter.mp hp
  rw [List.mem_flatMap] at hmem
  obtain ⟨row, hrow, hpr⟩ := hmem
  rw [rowPairs, List.mem_map] at hpr
  obtain ⟨g, hg, hgp⟩ := hpr
  have hgf : g = f := by
    rw [← hgp] at hkey
    exact eq_of_beq hkey
  rw [columnOf, List.mem_map]
  refine ⟨row, hrow, ?_⟩
  rw [← hpv, ← hgp, hgf]

/-! Claim C3: a resolved type conflict is fatal, and the error is always the
mismatch error (the defensive `notString` branch is unreachable). -/

theorem stepField_error_mismatch {m : TypeMap} {f v : String} {e : TypeErr}
    (h : stepField m f v = .error e) : ∃ p ty, e = TypeErr.mismatch p ty := by
  by_cases hv : v = ""
  · rw [hv, stepField_blank] at h
    exact Except.noConfusion h
  · cases hl : assocLookup f m with
    | some prev =>
      rw [stepField_nb_found m f v prev hv hl] at h
      by_cases hp : prev = resolveValue v
      · rw [if_pos hp] at h
        exact Except.noConfusion h
      · rw [if_neg hp] at h
        injection h with h
        exact ⟨prev.1, (resolveValue v).2, h.symm⟩
    | none =>
      rw [stepField_nb_new m f v hv hl] at h
      exact Except.noConfusion h

theorem foldPairs_error_mismatch (ps : List (String × String)) :
    ∀ (m : TypeMap) (e : TypeErr), foldPairs m ps = .error e →
      ∃ p ty, e = TypeErr.mismatch p ty := by
  induction ps with
  | nil =>
    intro m e h
    exact Except.noConfusion h
  | cons x rest ih =>
    intro m e h
    obtain ⟨f, v⟩ := x
    simp only [foldPairs] at h
    cases hs : stepField m f v with
    | error e2 =>
      rw [hs] at h
      simp only at h
      injection h with h
      rw [← h]
      exact stepField_error_mismatch hs
    | ok m2 =>
      rw [hs] at h
      simp only at h
      exact ih m2 e h

/-- C3: once a field's type is fixed by a non-blank value, any other
non-blank value of that field resolving differently (under the fixed
candidate order Integer, Date, Text embodied in `resolveValue`) makes
`determine_types` raise a type-conflict error, which aborts the whole
`UrlCSV` build. -/
theorem determine_types_type_conflict (t : RawTable) (f v w : String)
    (hf : f ∈ t.fieldNames) (hv : v ∈ columnOf t f) (hw : w ∈ columnOf t f)
    (hvnb : v ≠ "") (hwnb : w ≠ "") (hne : resolveValue v ≠ resolveValue w) :
    (∃ p ty, determineTypes t = .error (TypeErr.mismatch p ty)) ∧
      (∃ p ty, buildUrlCsv t = .error (TypeErr.mismatch p ty)) := by
  have hdet : ∃ e, determineTypes t = .error e := by
    rw [determineTypes_eq]
    cases hfold : foldPairs [] (t.rows.flatMap (rowPairs t.fieldNames)) with
    | error e => exact ⟨e, rfl⟩
    | ok m0 =>
      have hchar := foldPairs_ok_char _ [] m0 hfold f
      exact absurd hchar
        (foldOne_conflict (columnOf_sub t f hf v hv) (columnOf_sub t f hf w hw)
          hvnb hwnb hne _ _)
  obtain ⟨e, he⟩ := hdet
  have hm : ∃ p ty, e = TypeErr.mismatch p ty := by
    have he2 := he
    rw [determineTypes_eq] at he2
    cases hfold : foldPairs [] (t.rows.flatMap (rowPairs t.fieldNames)) with
    | error e2 =>
      rw [hfold] at he2
      simp only at he2
      injection he2 with he2
      rw [← he2]
      exact foldPairs_error_mismatch _ [] e2 hfold
    | ok m0 =>
      rw [hfold] at he2
      simp only at he2
      exact Except.noConfusion he2
  obtain ⟨p, ty, hpt⟩ := hm
  subst hpt
  refine ⟨⟨p, ty, he⟩, ⟨p, ty, ?_⟩⟩
  simp only [buildUrlCsv, he]

/-- Concrete table for the C3 witness: Integer then Date. -/
def tConflict : RawTable := ⟨"tc", ["f"], [["5"], ["2020-01-01"]]⟩

/-- C3 witness: the spec's example, `"5"` then `"2020-01-01"`. -/
theorem determine_types_type_conflict_witness :
    (∃ p ty, determineTypes tConflict = .error (TypeErr.mismatch p ty)) ∧
      (∃ p ty, buildUrlCsv tConflict = .error (TypeErr.mismatch p ty)) :=
  determine_types_type_conflict tConflict "f" "5" "2020-01-01" (by decide) (by decide)
    (by decide) (by decide) (by decide) (by decide)

/-! Claim C2: `"5"` then `"abc"` does not infer Text — it conflicts. -/

/-- Concrete table with one field valued `"5"` then `"abc"`. -/
def tIntText : RawTable := ⟨"tt", ["f"], [["5"], ["abc"]]⟩

/-- C2 counterexample: on the claim's own instance (values `"5"` and
`"abc"`), type inference does not succeed at all. -/
theorem int_then_text_not_ok : (determineTypes tIntText).isOk = false := by decide

/-- C2 (amended): a field valued `"5"` then `"abc"` makes `determine_types`
raise the type-conflict error (previous function `int` versus newly
resolved Text), aborting the table build, rather than inferring Text. -/
theorem int_then_text_conflict :
    determineTypes tIntText = Except.error (TypeErr.mismatch Func.intF SType.text) ∧
      buildUrlCsv tIntText = Except.error (TypeErr.mismatch Func.intF SType.text) := by
  constructor
  · rfl
  · rfl

/-! Claim C6: blank-cell typing and the all-blank Text default. -/

theorem determineTypes_all_blank_text (t : RawTable) (m : TypeMap)
    (hok : determineTypes t = .ok m) (f : String) (hf : f ∈ t.fieldNames)
    (hblank : ∀ v ∈ columnOf t f, v = "") :
    assocLookup f m = some (Func.strF, SType.text) := by
  rw [determineTypes_eq] at hok
  cases hfold : foldPairs [] (t.rows.flatMap (rowPairs t.fieldNames)) with
  | error e =>
    rw [hfold] at hok
    simp only at hok
    exact Except.noConfusion hok
  | ok m0 =>
    rw [hfold] at hok
    simp only at hok
    injection hok with hok
    subst hok
    have hcol : ∀ v ∈ colVals f (t.rows.flatMap (rowPairs t.fieldNames)), v = "" :=
      fun v hv => hblank v (colVals_sub t f v hv)
    have hchar := foldPairs_ok_char _ [] m0 hfold f
    rw [foldOne_all_blank _ _ hcol] at hchar
    injection hchar with hchar
    rw [fillDefaults_lookup, ← hchar]
    simp only [assocLookup]
    rw [if_pos hf]

/-- C6: in `_make_typed_tuples`, a blank cell of an Integer-typed field
becomes the integer `0` and a blank cell of any other type becomes the
missing marker (never the empty string); and a field whose observed values
are all blank is typed Text by `determine_types`. -/
theorem blank_cell_typing (t : RawTable) (m : TypeMap) (hok : determineTypes t = .ok m) :
    (∀ (i j : Nat) (row : List String) (f : String),
        t.rows[i]? = some row → t.fieldNames[j]? = some f →
        getField t.fieldNames row f = "" →
        ((makeTypedTuples t m)[i]?.bind (fun (r : List FieldVal) => r[j]?)) =
            some (if (ftOf m f).2 = SType.int then FieldVal.intV 0 else FieldVal.missing) ∧
          ((makeTypedTuples t m)[i]?.bind (fun (r : List FieldVal) => r[j]?)) ≠ some (FieldVal.textV "")) ∧
      (∀ f, f ∈ t.fieldNames → (∀ v ∈ columnOf t f, v = "") →
        assocLookup f m = some (Func.strF, SType.text)) := by
  constructor
  · intro i j row f hi hj hblank
    have h1 : (makeTypedTuples t m)[i]? =
        some (t.fieldNames.map
          (fun g => typedCell (ftOf m g) (getField t.fieldNames row g))) := by
      rw [makeTypedTuples, List.getElem?_map, hi]
      rfl
    have h2 : (t.fieldNames.map
        (fun g => typedCell (ftOf m g) (getField t.fieldNames row g)))[j]? =
        some (typedCell (ftOf m f) (getField t.fieldNames row f)) := by
      rw [List.getElem?_map, hj]
      rfl
    have hcell : ((makeTypedTuples t m)[i]?.bind (fun (r : List FieldVal) => r[j]?)) =
        some (typedCell (ftOf m f) (getField t.fieldNames row f)) := by
      rw [h1]
      exact h2
    rw [hcell, hblank]
    constructor
    · simp [typedCell]
    · simp only [typedCell]
      rw [if_neg (fun hcon => hcon rfl)]
      split <;> simp
  · intro f hf hblank
    exact determineTypes_all_blank_text t m hok f hf hblank

/-- Concrete table for the C6 witness: an Integer field with a blank cell,
a Text field with a blank cell, and an all-blank field. -/
def tBlank : RawTable := ⟨"tb", ["a", "b", "c"], [["1", "", ""], ["", "x", ""]]⟩

/-- The inferred type map of `tBlank`. -/
def mBlank : TypeMap :=
  [("b", (Func.strF, SType.text)), ("a", (Func.intF, SType.int)),
    ("c", (Func.strF, SType.text))]

/-- C6 witness: the theorem applied to `tBlank` — the blank Integer cell at
row 1, field `"a"`, and the all-blank field `"c"`. -/
theorem blank_cell_typing_witness :
    (((makeTypedTuples tBlank mBlank)[1]?.bind (fun (r : List FieldVal) => r[0]?)) =
        some (if (ftOf mBlank "a").2 = SType.int then FieldVal.intV 0 else FieldVal.missing) ∧
      ((makeTypedTuples tBlank mBlank)[1]?.bind (fun (r : List FieldVal) => r[0]?)) ≠
        some (FieldVal.textV "")) ∧
      assocLookup "c" mBlank = some (Func.strF, SType.text) :=
  ⟨(blank_cell_typing tBlank mBlank rfl).1 1 0 ["", "x", ""] "a" rfl rfl rfl,
    (blank_cell_typing tBlank mBlank rfl).2 "c" (by decide) (by decide)⟩

/-! Claim C9: what the type-conflict error carries.  The raised message
interpolates only the previous conversion function and the new type
(`TypeErr.mismatch`), so runs differing only in field and table names
produce literally identical errors. -/

/-- Relation between two scans that differ only in the key used: same
error, or both ok with matching entries at the respective keys. -/
def renRel (p q : String) : Except TypeErr TypeMap → Except TypeErr TypeMap → Prop
  | .ok m, .ok m2 => assocLookup p m = assocLookup q m2
  | .error e, .error e2 => e = e2
  | _, _ => False

theorem foldPairs_rename (vals : List String) :
    ∀ (p q : String) (m m2 : TypeMap), assocLookup p m = assocLookup q m2 →
      renRel p q (foldPairs m (vals.map (fun v => (p, v))))
        (foldPairs m2 (vals.map (fun v => (q, v)))) := by
  induction vals with
  | nil => intro p q m m2 h; exact h
  | cons v rest ih =>
    intro p q m m2 h
    simp only [List.map_cons, foldPairs]
    by_cases hv : v = ""
    · subst hv
      rw [stepField_blank, stepField_blank]
      exact ih p q m m2 h
    · cases hl : assocLookup p m with
      | some prev =>
        have hl2 : assocLookup q m2 = some prev := by rw [← h]; exact hl
        rw [stepField_nb_found m p v prev hv hl,
          stepField_nb_found m2 q v prev hv hl2]
        by_cases hp : prev = resolveValue v
        · rw [if_pos hp, if_pos hp]
          exact ih p q m m2 h
        · rw [if_neg hp, if_neg hp]
          rfl
      | none =>
        have hl2 : assocLookup q m2 = none := by rw [← h]; exact hl
        rw [stepField_nb_new m p v hv hl, stepField_nb_new m2 q v hv hl2]
        refine ih p q _ _ ?_
        rw [assocLookup_cons, assocLookup_cons, if_pos rfl, if_pos rfl]

theorem single_field_pairs (f : String) (rows : List (List String)) :
    rows.flatMap (rowPairs [f]) =
      (rows.map (fun row => row.getD 0 "")).map (fun v => (f, v)) := by
  induction rows with
  | nil => rfl
  | cons row rest ih =>
    simp only [List.flatMap_cons, List.map_cons]
    rw [ih]
    have hpair : rowPairs [f] row = [(f, row.getD 0 "")] := by
      simp [rowPairs, getField, idxOf]
    rw [hpair]
    rfl

/-- C9 (amended): the type-conflict error reports the conflicting previous
parse function and newly resolved type, but identifies neither the field
nor the table: the error outcome of `determine_types` is invariant under
renaming the table and its (single) field. -/
theorem conflict_error_lacks_field_table (nm nm2 f g : String)
    (rows : List (List String)) (e : TypeErr) :
    determineTypes ⟨nm, [f], rows⟩ = .error e ↔
      determineTypes ⟨nm2, [g], rows⟩ = .error e := by
  have h := foldPairs_rename (rows.map (fun row => row.getD 0 "")) f g [] [] rfl
  rw [determineTypes_eq, determineTypes_eq]
  simp only [single_field_pairs]
  cases h1 : foldPairs [] ((rows.map (fun row => row.getD 0 "")).map (fun v => (f, v))) with
  | error e1 =>
    cases h2 : foldPairs [] ((rows.map (fun row => row.getD 0 "")).map (fun v => (g, v))) with
    | error e2 =>
      rw [h1, h2] at h
      have he : e1 = e2 := h
      subst he
      simp only
    | ok mm =>
      rw [h1, h2] at h
      exact h.elim
  | ok mm =>
    cases h2 : foldPairs [] ((rows.map (fun row => row.getD 0 "")).map (fun v => (g, v))) with
    | error e2 =>
      rw [h1, h2] at h
      exact h.elim
    | ok mm2 =>
      simp only
      constructor
      · intro hc; exact Except.noConfusion hc
      · intro hc; exact Except.noConfusion hc

/-- C9 counterexample: two builds that fail on the same data but differ in
table name and field name deliver literally identical errors — the error
describes neither the field nor the table. -/
theorem conflict_error_identical_across_tables :
    determineTypes ⟨"T1", ["alpha"], [["5"], ["2020-01-01"]]⟩ =
        Except.error (TypeErr.mismatch Func.intF SType.date) ∧
      determineTypes ⟨"T2", ["beta"], [["5"], ["2020-01-01"]]⟩ =
        Except.error (TypeErr.mismatch Func.intF SType.date) := by
  constructor
  · rfl
  · rfl

/-- C9 witness: the rename-invariance theorem applied at a concrete
conflicting table pair. -/
theorem conflict_error_lacks_field_table_witness :
    determineTypes ⟨"T1", ["alpha"], [["5"], ["2020-01-01"]]⟩ =
        .error (TypeErr.mismatch Func.intF SType.date) ↔
      determineTypes ⟨"T2", ["beta"], [["5"], ["2020-01-01"]]⟩ =
        .error (TypeErr.mismatch Func.intF SType.date) :=
  conflict_error_lacks_field_table "T1" "T2" "alpha" "beta"
    [["5"], ["2020-01-01"]] (TypeErr.mismatch Func.intF SType.date)

/-! Claim C7: `union_fields` is a duplicate-free superset of all field lists. -/

theorem pyInsert_nil {α : Type} (i : Nat) (x : α) : pyInsert ([] : List α) i x = [x] := by
  simp [pyInsert]

theorem pyInsert_zero {α : Type} (l : List α) (x : α) : pyInsert l 0 x = x :: l := by
  simp [pyInsert]

theorem pyInsert_cons {α : Type} (c : α) (l : List α) (i : Nat) (x : α) :
    pyInsert (c :: l) (i + 1) x = c :: pyInsert l i x := by
  simp [pyInsert]

theorem mem_pyInsert {α : Type} (a x : α) :
    ∀ (l : List α) (i : Nat), a ∈ pyInsert l i x ↔ a = x ∨ a ∈ l := by
  intro l
  induction l with
  | nil => intro i; simp [pyInsert_nil]
  | cons c t ih =>
    intro i
    cases i with
    | zero => simp [pyInsert_zero]
    | succ n =>
      rw [pyInsert_cons]
      simp only [List.mem_cons, ih n]
      tauto

theorem nodup_pyInsert {α : Type} (x : α) :
    ∀ (l : List α) (i : Nat), l.Nodup → x ∉ l → (pyInsert l i x).Nodup := by
  intro l
  induction l with
  | nil => intro i _ _; rw [pyInsert_nil]; simp
  | cons c t ih =>
    intro i hnd hx
    cases i with
    | zero =>
      rw [pyInsert_zero]
      exact List.nodup_cons.mpr ⟨hx, hnd⟩
    | succ n =>
      rw [pyInsert_cons]
      rw [List.nodup_cons] at hnd ⊢
      obtain ⟨hc, ht⟩ := hnd
      have hx2 : x ∉ t := fun hmem => hx (List.mem_cons_of_mem c hmem)
      refine ⟨?_, ih n ht hx2⟩
      intro hmem
      rcases (mem_pyInsert c x t n).mp hmem with hcx | hct
      · exact hx (by rw [← hcx]; exact List.mem_cons_self c t)
      · exact hc hct

theorem spliceGo_props :
    ∀ (fields base : List String) (idx off : Nat), base.Nodup →
      (spliceGo base idx off fields).Nodup ∧
        (∀ x ∈ base, x ∈ spliceGo base idx off fields) ∧
        (∀ f ∈ fields, f ∈ spliceGo base idx off fields) := by
  intro fields
  induction fields with
  | nil =>
    intro base idx off hnd
    exact ⟨hnd, fun x hx => hx, fun f hf => absurd hf (List.not_mem_nil f)⟩
  | cons f rest ih =>
    intro base idx off hnd
    simp only [spliceGo]
    by_cases hf : f ∈ base
    · rw [if_pos hf]
      obtain ⟨h1, h2, h3⟩ := ih base (idx + 1) off hnd
      refine ⟨h1, h2, ?_⟩
      intro g hg
      rcases List.mem_cons.mp hg with hgf | hg2
      · rw [hgf]; exact h2 f hf
      · exact h3 g hg2
    · rw [if_neg hf]
      have hnd2 : (pyInsert base (idx + off) f).Nodup :=
        nodup_pyInsert f base (idx + off) hnd hf
      obtain ⟨h1, h2, h3⟩ := ih (pyInsert base (idx + off) f) (idx + 1) (off + 1) hnd2
      refine ⟨h1, ?_, ?_⟩
      · intro x hx
        exact h2 x ((mem_pyInsert x f base (idx + off)).mpr (Or.inr hx))
      · intro g hg
        rcases List.mem_cons.mp hg with hgf | hg2
        · rw [hgf]
          exact h2 f ((mem_pyInsert f f base (idx + off)).mpr (Or.inl rfl))
        · exact h3 g hg2

theorem spliceAll_props :
    ∀ (ts : List UrlCsv) (base : List String), base.Nodup →
      (spliceAll base ts).Nodup ∧
        (∀ x ∈ base, x ∈ spliceAll base ts) ∧
        (∀ t ∈ ts, ∀ f ∈ t.fieldNames, f ∈ spliceAll base ts) := by
  intro ts
  induction ts with
  | nil =>
    intro base hnd
    exact ⟨hnd, fun x hx => hx, by simp⟩
  | cons t rest ih =>
    intro base hnd
    simp only [spliceAll]
    by_cases heq : t.fieldNames = base
    · rw [if_pos heq]
      obtain ⟨h1, h2, h3⟩ := ih base hnd
      refine ⟨h1, h2, ?_⟩
      intro u hu
      rcases List.mem_cons.mp hu with hut | hu2
      · intro f hf
        rw [hut] at hf
        exact h2 f (heq ▸ hf)
      · exact h3 u hu2
    · rw [if_neg heq]
      obtain ⟨g1, g2, g3⟩ := spliceGo_props t.fieldNames base 0 0 hnd
      obtain ⟨h1, h2, h3⟩ := ih (spliceGo base 0 0 t.fieldNames) g1
      refine ⟨h1, fun x hx => h2 x (g2 x hx), ?_⟩
      intro u hu
      rcases List.mem_cons.mp hu with hut | hu2
      · intro f hf
        rw [hut] at hf
        exact h2 f (g3 f hf)
      · exact h3 u hu2

theorem pickLongest_cases :
    ∀ (ts : List UrlCsv) (acc : List String),
      pickLongest ts acc = acc ∨ ∃ t ∈ ts, pickLongest ts acc = t.fieldNames := by
  intro ts
  induction ts with
  | nil => intro acc; exact Or.inl rfl
  | cons t rest ih =>
    intro acc
    simp only [pickLongest]
    by_cases hlen : t.fieldNames.length > acc.length
    · rw [if_pos hlen]
      rcases ih t.fieldNames with h | ⟨u, hu, h⟩
      · exact Or.inr ⟨t, List.mem_cons_self t rest, h⟩
      · exact Or.inr ⟨u, List.mem_cons_of_mem t hu, h⟩
    · rw [if_neg hlen]
      rcases ih acc with h | ⟨u, hu, h⟩
      · exact Or.inl h
      · exact Or.inr ⟨u, List.mem_cons_of_mem t hu, h⟩

/-- C7: when every input field list is duplicate-free, `union_fields`
returns a list containing every field of every input table, with no field
more than once. -/
theorem union_fields_nodup_complete (ts : List UrlCsv)
    (h : ∀ t ∈ ts, t.fieldNames.Nodup) :
    (unionFields ts).Nodup ∧ ∀ t ∈ ts, ∀ f ∈ t.fieldNames, f ∈ unionFields ts := by
  have hbase : (pickLongest ts []).Nodup := by
    rcases pickLongest_cases ts [] with hb | ⟨t, ht, hb⟩
    · rw [hb]; exact List.nodup_nil
    · rw [hb]; exact h t ht
  obtain ⟨h1, _, h3⟩ := spliceAll_props ts (pickLongest ts []) hbase
  exact ⟨h1, h3⟩

/-- Table with fields a, b, c for the C7 witness (spec §8 example). -/
def uAbc : UrlCsv := ⟨"u1", ["a", "b", "c"], [], [], []⟩

/-- Table with fields a, c, d for the C7 witness (spec §8 example). -/
def uAcd : UrlCsv := ⟨"u2", ["a", "c", "d"], [], [], []⟩

/-- C7 witness: the theorem applied to the spec's `[a,b,c]`/`[a,c,d]` pair. -/
theorem union_fields_nodup_complete_witness :
    (unionFields [uAbc, uAcd]).Nodup ∧
      ∀ t ∈ [uAbc, uAcd], ∀ f ∈ t.fieldNames, f ∈ unionFields [uAbc, uAcd] :=
  union_fields_nodup_complete [uAbc, uAcd] (by decide)

/-! Claims C1 and C8: `merge_typed_dicts`. -/

theorem assocLookup_mergeRow (f : String) (row : List (String × FieldVal)) :
    ∀ fl : List String,
      assocLookup f (mergeRow fl row) =
        if f ∈ fl then some ((assocLookup f row).getD (defaultFor f)) else none := by
  intro fl
  induction fl with
  | nil => simp [mergeRow, assocLookup]
  | cons g rest ih =>
    simp only [mergeRow, List.map_cons, assocLookup_cons] at ih ⊢
    by_cases hg : g = f
    · rw [if_pos hg, hg, if_pos (List.mem_cons_self f rest)]
    · rw [if_neg hg, ih]
      have hfg : ¬ f = g := fun hx => hg hx.symm
      have hmem : (f ∈ g :: rest) = (f ∈ rest) := by
        simp [List.mem_cons, hfg]
      simp only [hmem]

/-- C1 (amended): in `merge_typed_dicts`, a union-schema field absent from
a source row is filled with the missing marker when the field name
contains the substring `"flag"`, and with the integer `0` otherwise
(`default = None if 'flag' in field else 0`). -/
theorem merge_absent_field_default (ts : List UrlCsv) (t : UrlCsv) (ht : t ∈ ts)
    (row : List (String × FieldVal)) (hr : row ∈ t.typedDict) (f : String)
    (hf : f ∈ unionFields ts) (habs : assocLookup f row = none) :
    mergeRow (unionFields ts) row ∈ mergeTypedDicts ts ∧
      assocLookup f (mergeRow (unionFields ts) row) =
        some (if hasSubstr ['f', 'l', 'a', 'g'] f.data then FieldVal.missing
          else FieldVal.intV 0) := by
  constructor
  · rw [mergeTypedDicts, List.mem_flatMap]
    exact ⟨t, ht, List.mem_map.mpr ⟨row, hr, rfl⟩⟩
  · rw [assocLookup_mergeRow, if_pos hf, habs]
    rfl

/-- Table whose only field name contains `"flag"`, for C1 and C8. -/
def uFlagA : UrlCsv := ⟨"A", ["xflag"], [], [], [[("xflag", FieldVal.intV 1)]]⟩

/-- Table without the `"flag"` field, for C1 and C8. -/
def uPlainB : UrlCsv := ⟨"B", ["b"], [], [], [[("b", FieldVal.intV 2)]]⟩

/-- C1 counterexample: field `"xflag"` contains `"flag"` and is absent from
`uPlainB`'s row, yet its merged value is the missing marker, not `0` (and
the field `"b"` absent from `uFlagA`'s row gets `0`, not the marker). -/
theorem merge_flag_default_counterexample :
    hasSubstr ['f', 'l', 'a', 'g'] "xflag".data = true ∧
      assocLookup "xflag" [("b", FieldVal.intV 2)] = none ∧
      assocLookup "xflag" ((mergeTypedDicts [uFlagA, uPlainB]).getD 1 []) =
        some FieldVal.missing ∧
      assocLookup "b" ((mergeTypedDicts [uFlagA, uPlainB]).getD 0 []) =
        some (FieldVal.intV 0) := by
  refine ⟨?_, ?_, ?_, ?_⟩ <;> rfl

/-- C1 witness: the amended theorem applied to the concrete pair of tables. -/
theorem merge_absent_field_default_witness :
    mergeRow (unionFields [uFlagA, uPlainB]) [("b", FieldVal.intV 2)] ∈
        mergeTypedDicts [uFlagA, uPlainB] ∧
      assocLookup "xflag"
          (mergeRow (unionFields [uFlagA, uPlainB]) [("b", FieldVal.intV 2)]) =
        some (if hasSubstr ['f', 'l', 'a', 'g'] "xflag".data then FieldVal.missing
          else FieldVal.intV 0) :=
  merge_absent_field_default [uFlagA, uPlainB] uPlainB (by decide)
    [("b", FieldVal.intV 2)] (by decide) "xflag" (by decide) (by decide)

/-- Number of merged rows contributed by the tables before index `k`. -/
def mergeOffset (ts : List UrlCsv) (k : Nat) : Nat :=
  ((ts.take k).map (fun t => t.typedDict.length)).sum

theorem mergeWith_getElem (fl : List String) :
    ∀ (ts : List UrlCsv) (k : Nat) (t : UrlCsv) (i : Nat)
      (row : List (String × FieldVal)),
      ts[k]? = some t → t.typedDict[i]? = some row →
      (ts.flatMap (fun u => u.typedDict.map (mergeRow fl)))[mergeOffset ts k + i]? =
        some (mergeRow fl row) := by
  intro ts
  induction ts with
  | nil =>
    intro k t i row hk _
    simp at hk
  | cons u rest ih =>
    intro k t i row hk hi
    cases k with
    | zero =>
      have hut : u = t := by simpa using hk
      subst hut
      simp only [List.flatMap_cons, mergeOffset, List.take_zero, List.map_nil,
        List.sum_nil, Nat.zero_add]
      have hlen : i < (u.typedDict.map (mergeRow fl)).length := by
        rw [List.length_map]
        exact (List.getElem?_eq_some_iff.mp hi).1
      rw [List.getElem?_append_left hlen, List.getElem?_map, hi]
      rfl
    | succ n =>
      have hk2 : rest[n]? = some t := by simpa using hk
      simp only [List.flatMap_cons]
      have hoff : mergeOffset (u :: rest) (n + 1) =
          (u.typedDict.map (mergeRow fl)).length + mergeOffset rest n := by
        simp [mergeOffset, List.length_map]
      rw [hoff]
      rw [List.getElem?_append_right (by omega)]
      have harith : (u.typedDict.map (mergeRow fl)).length + mergeOffset rest n + i -
          (u.typedDict.map (mergeRow fl)).length = mergeOffset rest n + i := by
        omega
      rw [harith]
      exact ih n t i row hk2 hi

/-- C8: `merge_typed_dicts` returns as many rows as all inputs together;
the row at global offset `mergeOffset ts k + i` is the merged image of the
`i`-th row of the `k`-th table (tables concatenated, rows in original
order); and every merged row's key list is exactly the union schema. -/
theorem merge_concat_shape (ts : List UrlCsv) :
    ((mergeTypedDicts ts).length = (ts.map (fun t => t.typedDict.length)).sum) ∧
      (∀ (k i : Nat) (t : UrlCsv) (row : List (String × FieldVal)),
        ts[k]? = some t → t.typedDict[i]? = some row →
        (mergeTypedDicts ts)[mergeOffset ts k + i]? =
          some (mergeRow (unionFields ts) row)) ∧
      (∀ mrow ∈ mergeTypedDicts ts, mrow.map Prod.fst = unionFields ts) := by
  refine ⟨?_, ?_, ?_⟩
  · rw [mergeTypedDicts, List.length_flatMap]
    congr 1
    simp [Function.comp]
  · intro k i t row hk hi
    exact mergeWith_getElem (unionFields ts) ts k t i row hk hi
  · intro mrow hm
    rw [mergeTypedDicts, List.mem_flatMap] at hm
    obtain ⟨t, _, hmap⟩ := hm
    obtain ⟨row, _, hrfl⟩ := List.mem_map.mp hmap
    rw [← hrfl, mergeRow, List.map_map]
    have hcomp : (Prod.fst ∘ fun f => (f, (assocLookup f row).getD (defaultFor f))) =
        (id : String → String) := rfl
    rw [hcomp, List.map_id]

/-- C8 witness: the shape theorem applied to the concrete pair of tables,
locating table B's row at global index 1. -/
theorem merge_concat_shape_witness :
    (mergeTypedDicts [uFlagA, uPlainB])[mergeOffset [uFlagA, uPlainB] 1 + 0]? =
      some (mergeRow (unionFields [uFlagA, uPlainB]) [("b", FieldVal.intV 2)]) :=
  (merge_concat_shape [uFlagA, uPlainB]).2.1 1 0 uPlainB [("b", FieldVal.intV 2)] rfl rfl

/-! Claim C4: when `pivot_typed_dict` fails. -/

theorem appendAt_keys (f : String) (v : FieldVal) :
    ∀ (res res2 : List (String × List FieldVal)), appendAt res f v = some res2 →
      res2.map Prod.fst = res.map Prod.fst := by
  intro res
  induction res with
  | nil => intro res2 h; exact Option.noConfusion h
  | cons p rest ih =>
    intro res2 h
    obtain ⟨g, vs⟩ := p
    simp only [appendAt] at h
    by_cases hg : g = f
    · rw [if_pos hg] at h
      injection h with h
      rw [← h]
      simp
    · rw [if_neg hg] at h
      cases ha : appendAt rest f v with
      | none => rw [ha] at h; simp at h
      | some r2 =>
        rw [ha] at h
        simp only [Option.map_some'] at h
        injection h with h
        rw [← h]
        simp only [List.map_cons]
        rw [ih r2 ha]

theorem appendAt_isSome_iff (f : String) (v : FieldVal) :
    ∀ res : List (String × List FieldVal),
      (appendAt res f v).isSome = true ↔ f ∈ res.map Prod.fst := by
  intro res
  induction res with
  | nil => simp [appendAt]
  | cons p rest ih =>
    obtain ⟨g, vs⟩ := p
    simp only [appendAt, List.map_cons, List.mem_cons]
    by_cases hg : g = f
    · rw [if_pos hg]
      simp [hg.symm]
    · rw [if_neg hg]
      have hfg : ¬ f = g := fun hx => hg hx.symm
      simp [hfg, ih]

theorem pivotRow_aux :
    ∀ (row : List (String × FieldVal)) (res : List (String × List FieldVal)),
      (∀ res2, pivotRow res row = .ok res2 → res2.map Prod.fst = res.map Prod.fst) ∧
        ((pivotRow res row).isOk = true ↔ ∀ p ∈ row, p.1 ∈ res.map Prod.fst) := by
  intro row
  induction row with
  | nil =>
    intro res
    constructor
    · intro res2 h
      injection h with h
      rw [h]
    · simp [pivotRow, Except.isOk, Except.toBool]
  | cons p rest ih =>
    intro res
    obtain ⟨f, v⟩ := p
    simp only [pivotRow]
    cases ha : appendAt res f v with
    | none =>
      have hnot : ¬ f ∈ res.map Prod.fst := by
        rw [← appendAt_isSome_iff f v res, ha]
        simp
      constructor
      · intro res2 h
        exact Except.noConfusion h
      · simp only [Except.isOk, Except.toBool]
        constructor
        · intro h
          exact Bool.noConfusion h
        · intro hall
          exact absurd (hall (f, v) (List.mem_cons_self (f, v) rest)) hnot
    | some resA =>
      have hkeys : resA.map Prod.fst = res.map Prod.fst := appendAt_keys f v res resA ha
      have hin : f ∈ res.map Prod.fst := by
        rw [← appendAt_isSome_iff f v res, ha]
        rfl
      obtain ⟨ihk, ihok⟩ := ih resA
      constructor
      · intro res2 h
        rw [ihk res2 h]
        exact hkeys
      · rw [ihok, hkeys]
        constructor
        · intro hall q hq
          rcases List.mem_cons.mp hq with hqp | hq2
          · rw [hqp]
            exact hin
          · exact hall q hq2
        · intro hall q hq
          exact hall q (List.mem_cons_of_mem (f, v) hq)

theorem pivotRows_ok_iff :
    ∀ (td : List (List (String × FieldVal))) (res : List (String × List FieldVal)),
      (pivotRows res td).isOk = true ↔
        ∀ row ∈ td, ∀ p ∈ row, p.1 ∈ res.map Prod.fst := by
  intro td
  induction td with
  | nil =>
    intro res
    simp [pivotRows, Except.isOk, Except.toBool]
  | cons row rest ih =>
    intro res
    simp only [pivotRows]
    cases hr : pivotRow res row with
    | error e =>
      have hnot : ¬ ∀ p ∈ row, p.1 ∈ res.map Prod.fst := by
        rw [← (pivotRow_aux row res).2, hr]
        simp [Except.isOk, Except.toBool]
      constructor
      · intro h
        simp only [Except.isOk, Except.toBool] at h
        exact Bool.noConfusion h
      · intro hall
        exact absurd (fun p hp => hall row (List.mem_cons_self row rest) p hp) hnot
    | ok resA =>
      have hkeys : resA.map Prod.fst = res.map Prod.fst := (pivotRow_aux row res).1 resA hr
      have hrow : ∀ p ∈ row, p.1 ∈ res.map Prod.fst := by
        rw [← (pivotRow_aux row res).2, hr]
        rfl
      rw [ih resA, hkeys]
      constructor
      · intro hall r hrm
        rcases List.mem_cons.mp hrm with hr1 | hr2
        · rw [hr1]
          exact hrow
        · exact hall r hr2
      · intro hall r hrm
        exact hall r (List.mem_cons_of_mem row hrm)

/-- C4 (amended): `pivot_typed_dict` fails on an empty row sequence
(IndexError on `td[0]`); for a non-empty sequence it fails exactly when
some row contains a field absent from the first row (KeyError) — a row
merely lacking a first-row field does not make it fail, that field's
column just skips the row. -/
theorem pivot_failure_characterization :
    pivotTypedDict ([] : List (List (String × FieldVal))) = .error PivotErr.indexErr ∧
      ∀ (first : List (String × FieldVal)) (rest : List (List (String × FieldVal))),
        ((pivotTypedDict (first :: rest)).isOk = false ↔
          ∃ row ∈ first :: rest, ∃ p ∈ row, p.1 ∉ first.map Prod.fst) := by
  constructor
  · rfl
  · intro first rest
    have hkeys : (first.map (fun p => (p.1, ([] : List FieldVal)))).map Prod.fst =
        first.map Prod.fst := by
      rw [List.map_map]
      rfl
    have hiff := pivotRows_ok_iff (first :: rest)
      (first.map (fun p => (p.1, ([] : List FieldVal))))
    rw [hkeys] at hiff
    rw [pivotTypedDict]
    constructor
    · intro h
      have hnot : ¬ ∀ row ∈ first :: rest, ∀ p ∈ row, p.1 ∈ first.map Prod.fst := by
        rw [← hiff]
        intro hok
        rw [hok] at h
        exact Bool.noConfusion h
      push_neg at hnot
      exact hnot
    · intro ⟨row, hrow, q, hq, hnot⟩
      cases hok : (pivotRows (first.map (fun p => (p.1, ([] : List FieldVal))))
          (first :: rest)).isOk with
      | false => rfl
      | true => exact absurd (hiff.mp hok row hrow q hq) hnot

/-- C4 counterexample: a row lacking the field `"b"` that is present in
the first row — `pivot_typed_dict` succeeds instead of failing. -/
theorem pivot_missing_field_succeeds :
    (pivotTypedDict [[("a", FieldVal.intV 1), ("b", FieldVal.intV 2)],
        [("a", FieldVal.intV 3)]]).isOk = true := by
  rfl

/-- C4 witness: the characterization applied to a concrete table whose
second row carries an extra field `"c"`. -/
theorem pivot_failure_witness :
    (pivotTypedDict [[("a", FieldVal.intV 1)],
        [("a", FieldVal.intV 3), ("c", FieldVal.intV 9)]]).isOk = false :=
  (pivot_failure_characterization.2 [("a", FieldVal.intV 1)]
      [[("a", FieldVal.intV 3), ("c", FieldVal.intV 9)]]).mpr
    ⟨[("a", FieldVal.intV 3), ("c", FieldVal.intV 9)], by decide,
      ("c", FieldVal.intV 9), by decide, by decide⟩

end Cdc
